import Mathlib

/-!
Verification development for the bank-marketing analytics dashboard.

The repository ships a React frontend (`frontend/src/...`) that talks to a
Flask analytics backend; the backend's Python source is not part of the
checked-in sources, so the analytics-engine operations (dataset aggregation,
model bench, importance aggregation, segmentation, economic analysis) are
modelled from the written specification, while the frontend page logic
(`ContactOptimization`, `CustomerSegmentation`, `EconomicImpact`) is embedded
directly from the JSX sources.

Machine reals are modelled by `ℚ`; note that in Lean `q / 0 = 0` on `ℚ`.
-/

namespace BankDash

/-- One customer-contact observation, after §3 of the specification: campaign
attributes (contact channel, month, day of week, contact count, previous
outcome), demographics, economic indicators, and the label `subscribed`. -/
structure Customer where
  age : ℕ
  job : String
  education : String
  contact : String
  month : String
  day_of_week : String
  campaign : ℕ
  poutcome : String
  emp_var_rate : ℚ
  euribor3m : ℚ
  subscribed : Bool
deriving DecidableEq, Repr

/-! ### Contact Optimizer (modelled from the spec; backend source absent) -/

/-- Modelled from the spec: the Contact Optimizer reports
`conversion_rate_pct` as `100 * conversions / total_contacts`, with `0/0`
reported as `0.0` rather than `NaN` or an error (§4.6). -/
def convRatePct (conversions total : ℕ) : ℚ :=
  if total = 0 then 0 else 100 * (conversions : ℚ) / (total : ℚ)

/-- One grouped-aggregation cell of the Contact Optimizer output. -/
structure GroupStat where
  total_contacts : ℕ
  conversions : ℕ
  conversion_rate_pct : ℚ
deriving DecidableEq, Repr

/-- Modelled from the spec: pure grouped aggregation over the dataset — for the
group selected by predicate `p`, count total contacts and conversions and
derive the percentage conversion rate (§4.6). -/
def groupStat (recs : List Customer) (p : Customer → Bool) : GroupStat :=
  let grp := recs.filter p
  { total_contacts := grp.length
    conversions := (grp.filter (·.subscribed)).length
    conversion_rate_pct := convRatePct (grp.filter (·.subscribed)).length grp.length }

/-- The Contact Optimizer's channel breakdown cell for channel `ch`. -/
def channelStat (recs : List Customer) (ch : String) : GroupStat :=
  groupStat recs (fun r => r.contact == ch)

/-- The Contact Optimizer's month breakdown cell. -/
def monthStat (recs : List Customer) (m : String) : GroupStat :=
  groupStat recs (fun r => r.month == m)

/-- The Contact Optimizer's day-of-week breakdown cell. -/
def dayStat (recs : List Customer) (d : String) : GroupStat :=
  groupStat recs (fun r => r.day_of_week == d)

/-- The Contact Optimizer's campaign-count (frequency) breakdown cell. -/
def campaignStat (recs : List Customer) (c : ℕ) : GroupStat :=
  groupStat recs (fun r => r.campaign == c)

/-- The Contact Optimizer's previous-outcome breakdown cell. -/
def poutcomeStat (recs : List Customer) (o : String) : GroupStat :=
  groupStat recs (fun r => r.poutcome == o)

/-- A synthetic dataset of 10 records: 5 cellular contacts with 3 conversions,
5 telephone contacts with 0 conversions (spec §8, Contact Optimizer test). -/
def mkCust (ch : String) (sub : Bool) : Customer :=
  { age := 40, job := "admin.", education := "university.degree", contact := ch
    month := "may", day_of_week := "mon", campaign := 1, poutcome := "nonexistent"
    emp_var_rate := 1, euribor3m := 4, subscribed := sub }

/-- The ten-record synthetic dataset from the spec's testable properties. -/
def sample10 : List Customer :=
  [mkCust "cellular" true, mkCust "cellular" true, mkCust "cellular" true,
   mkCust "cellular" false, mkCust "cellular" false,
   mkCust "telephone" false, mkCust "telephone" false, mkCust "telephone" false,
   mkCust "telephone" false, mkCust "telephone" false]

theorem conversions_le_total (recs : List Customer) (p : Customer → Bool) :
    (groupStat recs p).conversions ≤ (groupStat recs p).total_contacts := by
  simpa [groupStat] using
    List.length_filter_le (·.subscribed) (recs.filter p)

/-- Claim C1: in every breakdown cell the reported `conversion_rate_pct`
equals `100 * conversions / total_contacts`, a group with no contacts reports
`0.0`, and on the ten-record synthetic dataset the cellular rate is `60.0`
and the telephone rate is `0.0`. -/
theorem contact_optimizer_rate_correct :
    (∀ (recs : List Customer) (p : Customer → Bool),
        (groupStat recs p).conversion_rate_pct =
          100 * ((groupStat recs p).conversions : ℚ) /
            ((groupStat recs p).total_contacts : ℚ) ∧
        ((groupStat recs p).total_contacts = 0 →
          (groupStat recs p).conversion_rate_pct = 0)) ∧
    (channelStat sample10 "cellular").conversion_rate_pct = 60 ∧
    (channelStat sample10 "telephone").conversion_rate_pct = 0 := by
  refine ⟨fun recs p => ⟨?_, ?_⟩, ?_, ?_⟩
  case refine_3 =>
    show convRatePct 3 5 = 60
    norm_num [convRatePct]
  case refine_4 =>
    show convRatePct 0 5 = 0
    norm_num [convRatePct]
  · by_cases h : (groupStat recs p).total_contacts = 0
    · have hc : (groupStat recs p).conversions = 0 :=
        Nat.le_zero.mp (h ▸ conversions_le_total recs p)
      simp only [groupStat, convRatePct] at h hc ⊢
      simp [h, hc]
    · simp only [groupStat, convRatePct] at h ⊢
      simp [h]
  · intro h
    simp only [groupStat, convRatePct] at h ⊢
    simp [h]

/-- Witness for C1 at a concrete input: a group with no contacts reports a
conversion rate of `0.0`. -/
theorem contact_optimizer_rate_correct_witness :
    (groupStat [] (fun _ => true)).conversion_rate_pct = 0 :=
  (contact_optimizer_rate_correct.1 [] (fun _ => true)).2 rfl

/-! ### Result Cache (modelled from the spec §2/§5; backend source absent) -/

/-- Association-list lookup used by the Result Cache model. -/
def assocFind {κ ρ : Type} [DecidableEq κ] (k : κ) : List (κ × ρ) → Option ρ
  | [] => none
  | (k', r) :: rest => if k = k' then some r else assocFind k rest

/-- Process-wide memoization state: stored results plus a count of cache
misses (i.e. how many times the expensive computation actually ran). -/
structure ResultCache (κ ρ : Type) where
  entries : List (κ × ρ)
  misses : ℕ

/-- Modelled from the spec: compute-or-fetch memoization keyed by computation
identity — repeated requests for the same key short-circuit to the cached
result instead of recomputing (§2 Result Cache, §5). -/
def cacheRun {κ ρ : Type} [DecidableEq κ] (compute : κ → ρ)
    (st : ResultCache κ ρ) (k : κ) : ρ × ResultCache κ ρ :=
  match assocFind k st.entries with
  | some r => (r, st)
  | none =>
    let r := compute k
    (r, ⟨(k, r) :: st.entries, st.misses + 1⟩)

theorem assocFind_cons_self {κ ρ : Type} [DecidableEq κ] (k : κ) (r : ρ)
    (l : List (κ × ρ)) : assocFind k ((k, r) :: l) = some r := by
  simp [assocFind]

theorem cacheRun_second {κ ρ : Type} [DecidableEq κ] (compute : κ → ρ)
    (st : ResultCache κ ρ) (k : κ) :
    (cacheRun compute (cacheRun compute st k).2 k).1 = (cacheRun compute st k).1 ∧
    (cacheRun compute (cacheRun compute st k).2 k).2.misses =
      (cacheRun compute st k).2.misses := by
  cases h : assocFind k st.entries with
  | some r => simp [cacheRun, h]
  | none => simp [cacheRun, h, assocFind_cons_self]

/-! ### Economic Analyzer (modelled from the spec §4.7; backend source absent)
plus the correlation-table rendering embedded from `EconomicImpact.jsx`. -/

/-- Mean of a rational list (`0` on the empty list, since `q / 0 = 0`). -/
def listMean (xs : List ℚ) : ℚ := xs.sum / xs.length

/-- Deviations from the mean. -/
def centered (xs : List ℚ) : List ℚ := xs.map (· - listMean xs)

/-- Sum of products of deviations (the covariance numerator). -/
def covSum (xs ys : List ℚ) : ℚ := (List.zipWith (· * ·) (centered xs) (centered ys)).sum

/-- Sum of squared deviations (the variance numerator). -/
def varSum (xs : List ℚ) : ℚ := covSum xs xs

/-- Modelled from the spec: Pearson's r between an indicator column and the
label (§4.7). The true r divides the covariance by the product of standard
deviations, which is irrational in general; over `ℚ` we keep a rational
surrogate with the same sign and, crucially, the same definedness: the
computation is impossible — and reports `none` — exactly when a column is
constant (zero variance), the case §7/§8 constrain. -/
def pearsonSurrogate (xs ys : List ℚ) : Option ℚ :=
  if varSum xs = 0 ∨ varSum ys = 0 then none
  else some (covSum xs ys / (varSum xs * varSum ys))

/-- One row of the Economic Analyzer's correlation table (§3 CorrelationEntry):
indicator name, Pearson correlation with the label, p-value, and the
significance flag rendered as `"Yes"`/`"No"`. -/
structure CorrelationEntry where
  indicator : String
  correlation : Option ℚ
  pvalue : Option ℚ
  significant : String
deriving DecidableEq, Repr

/-- The binary label column as rationals. -/
def labelCol (recs : List Customer) : List ℚ :=
  recs.map (fun r => if r.subscribed then 1 else 0)

/-- Modelled from the spec: the correlation row for one economic indicator —
when the correlation is uncomputable the row carries an explicit `none`
correlation and `significant = "No"`, never the numeric value `0.0` (§7).
The p-value in the computable case is a rational surrogate for the
t-distribution tail (only its definedness matters to the claims). -/
def corrEntry (recs : List Customer) (name : String) (col : Customer → ℚ) :
    CorrelationEntry :=
  match pearsonSurrogate (recs.map col) (labelCol recs) with
  | none => ⟨name, none, none, "No"⟩
  | some r =>
    let p := 1 / (1 + (recs.length : ℚ) * (r * r))
    ⟨name, some r, some p, if p < 1 / 20 then "Yes" else "No"⟩

/-- The Economic Analyzer's correlation table over the indicator columns. -/
def econCorrelations (recs : List Customer) : List CorrelationEntry :=
  [corrEntry recs "emp.var.rate" (fun r => r.emp_var_rate),
   corrEntry recs "euribor3m" (fun r => r.euribor3m)]

/-- JS `Number.prototype.toFixed` as invoked on a possibly-null field:
calling a method on `null` throws a TypeError. The rounded value is kept as a
rational. `EconomicImpact.jsx` renders `row.Correlation.toFixed(4)` (line 102)
and `row.P-Value.toFixed(6)` (line 105) with no null guard. -/
def jsToFixed (v : Option ℚ) (digits : ℕ) : Except String ℚ :=
  match v with
  | none => Except.error "TypeError: toFixed called on null"
  | some q => Except.ok ((round (q * (10 : ℚ) ^ digits) : ℚ) / (10 : ℚ) ^ digits)

/-- One rendered row of the `EconomicImpact.jsx` correlation table
(indicator, formatted correlation, formatted p-value, significance badge). -/
def renderCorrRow (row : CorrelationEntry) :
    Except String (String × ℚ × ℚ × String) := do
  let c ← jsToFixed row.correlation 4
  let p ← jsToFixed row.pvalue 6
  Except.ok (row.indicator, c, p, row.significant)

/-- The whole rendered correlation table: the first throwing row aborts the
render, as a thrown TypeError unwinds the React render pass. -/
def renderCorrTable (rows : List CorrelationEntry) :
    Except String (List (String × ℚ × ℚ × String)) :=
  rows.mapM renderCorrRow

/-- Claim C3 (code evaluated at the failing input): on a dataset whose
`emp.var.rate` column is constant, the analyzer's row carries an explicit
`none` correlation with `significant = "No"` — in particular the failure is
not downgraded to the numeric value `0.0` — but the `EconomicImpact.jsx`
table render then calls `toFixed` on that null correlation and throws a
TypeError, so the constant-column case is NOT handled without throwing end to
end through the rendered correlation table. -/
theorem econ_constant_column_render_throws :
    (corrEntry sample10 "emp.var.rate" (fun r => r.emp_var_rate)).correlation
        = none ∧
    (corrEntry sample10 "emp.var.rate" (fun r => r.emp_var_rate)).significant
        = "No" ∧
    renderCorrRow (corrEntry sample10 "emp.var.rate" (fun r => r.emp_var_rate))
        = Except.error "TypeError: toFixed called on null" ∧
    renderCorrTable (econCorrelations sample10)
        = Except.error "TypeError: toFixed called on null" := by
  have hcol : sample10.map (fun r => r.emp_var_rate) =
      [1, 1, 1, 1, 1, 1, 1, 1, 1, 1] := rfl
  have hvar : varSum [(1 : ℚ), 1, 1, 1, 1, 1, 1, 1, 1, 1] = 0 := by
    norm_num [varSum, covSum, centered, listMean]
  have hnone : pearsonSurrogate (sample10.map (fun r => r.emp_var_rate))
      (labelCol sample10) = none := by
    rw [hcol]
    simp [pearsonSurrogate, hvar]
  have hentry : corrEntry sample10 "emp.var.rate" (fun r => r.emp_var_rate) =
      ⟨"emp.var.rate", none, none, "No"⟩ := by
    simp [corrEntry, hnone]
  refine ⟨by rw [hentry], by rw [hentry], ?_, ?_⟩
  · rw [hentry]
    rfl
  · show (econCorrelations sample10).mapM renderCorrRow = _
    rw [show econCorrelations sample10 =
        [corrEntry sample10 "emp.var.rate" (fun r => r.emp_var_rate),
         corrEntry sample10 "euribor3m" (fun r => r.euribor3m)] from rfl,
      hentry]
    rfl

/-! ### Model Bench (modelled from the spec §4.3; backend source absent) -/

/-- A numeric feature vector (one row of the FeatureMatrix). -/
abbrev Row := List ℚ

/-- A labelled row: feature vector plus the binary label. -/
abbrev LRow := Row × Bool

/-- Number of rows carrying label `b`. -/
def countLabel (b : Bool) (l : List LRow) : ℕ :=
  l.countP (fun x => x.2 == b)

/-- Deterministic seed-driven permutation model: rotate the list by the seed.
Stands in for the seeded shuffle of the split procedure; any fixed
seed-determined permutation gives the split the properties the claims use. -/
def seededRot {α : Type} (seed : ℕ) (l : List α) : List α :=
  l.drop (seed % (l.length + 1)) ++ l.take (seed % (l.length + 1))

/-- Modelled from the spec: stratified train/test split — the positive and
negative classes are each split with fraction `frac` going to the test side,
using the seed-determined order, so the label ratio is preserved in both
splits (§4.3 step 1). Returns `(train, test)`. -/
def stratSplit (rows : List LRow) (frac : ℚ) (seed : ℕ) : List LRow × List LRow :=
  let pos := rows.filter (fun x => x.2)
  let neg := rows.filter (fun x => !x.2)
  let nPos := (⌊frac * (pos.length : ℚ)⌋).toNat
  let nNeg := (⌊frac * (neg.length : ℚ)⌋).toNat
  let shPos := seededRot seed pos
  let shNeg := seededRot seed neg
  (shPos.drop nPos ++ shNeg.drop nNeg, shPos.take nPos ++ shNeg.take nNeg)

/-- Convex interpolation between two feature vectors (midpoint: the
deterministic choice of the interpolation coefficient). -/
def interpolate (a b : Row) : Row :=
  List.zipWith (fun x y => x + (y - x) / 2) a b

/-- The minority label of a training split (ties resolved to `true`). -/
def minorityLabel (train : List LRow) : Bool :=
  if countLabel true train ≤ countLabel false train then true else false

/-- The minority-class feature vectors of a training split. -/
def minorityRows (train : List LRow) : List Row :=
  (train.filter (fun x => x.2 == minorityLabel train)).map Prod.fst

/-- Modelled from the spec: synthetic minority oversampling — minority rows
are up-sampled by synthesizing new feature vectors as convex interpolations
between a minority sample and a nearby minority neighbor (neighbor choice
modelled as the cyclically next minority row), until class counts are
balanced (§4.3 step 2). A split with no minority rows at all is returned
unchanged (nothing to interpolate). -/
def smote (train : List LRow) : List LRow :=
  let cpos := countLabel true train
  let cneg := countLabel false train
  let minL := minorityLabel train
  let minRows := minorityRows train
  let need := max cpos cneg - min cpos cneg
  if minRows.isEmpty then train
  else
    train ++ (List.range need).map (fun i =>
      (interpolate (minRows.getD (i % minRows.length) [])
                   (minRows.getD ((i + 1) % minRows.length) []), minL))

/-- Modelled from the spec: the per-run data preparation — stratified split,
then oversampling applied to the training side only; the test side is passed
through untouched (§4.3 steps 1–2). -/
def benchPipeline (rows : List LRow) (frac : ℚ) (seed : ℕ) :
    List LRow × List LRow :=
  (smote (stratSplit rows frac seed).1, (stratSplit rows frac seed).2)

/-- Division that reports `0` on a zero denominator (metric conventions). -/
def safeDiv (a b : ℚ) : ℚ := if b = 0 then 0 else a / b

/-- Evaluation metrics of one trained model (§3 ModelResult): accuracy,
precision, recall, F1, a ROC-AUC value, and the four confusion-matrix cells.
The classifier model is hard (Boolean) rather than probability-scoring, so
the ROC-AUC field carries the balanced accuracy, the one-threshold point
estimate of the curve's area. -/
structure ModelMetrics where
  accuracy : ℚ
  precision : ℚ
  recallScore : ℚ
  f1 : ℚ
  rocAuc : ℚ
  tp : ℕ
  fp : ℕ
  tn : ℕ
  fn : ℕ
deriving DecidableEq, Repr

/-- Modelled from the spec: metrics of predictor `f` on the untouched test
split (§4.3 step 4). -/
def metricsOf (f : Row → Bool) (test : List LRow) : ModelMetrics :=
  let tp := (test.filter (fun x => f x.1 && x.2)).length
  let fp := (test.filter (fun x => f x.1 && !x.2)).length
  let tn := (test.filter (fun x => !f x.1 && !x.2)).length
  let fn := (test.filter (fun x => !f x.1 && x.2)).length
  let prec := safeDiv tp (tp + fp)
  let recl := safeDiv tp (tp + fn)
  let tnr := safeDiv tn (tn + fp)
  { accuracy := safeDiv (tp + tn) (tp + fp + tn + fn)
    precision := prec
    recallScore := recl
    f1 := safeDiv (2 * prec * recl) (prec + recl)
    rocAuc := (recl + tnr) / 2
    tp := tp, fp := fp, tn := tn, fn := fn }

/-- Squared Euclidean distance between two feature vectors. -/
def dist2 (a b : Row) : ℚ :=
  (List.zipWith (fun x y => (x - y) * (x - y)) a b).sum

/-- Deterministic stand-in classifier (nearest labelled training row); the
real algorithms' fitted parameters are opaque to every claim here, which only
depend on fit success/failure and determinism. -/
def nnPredict (train : List LRow) (x : Row) : Bool :=
  match train with
  | [] => false
  | h :: t =>
    (t.foldl (fun best c => if dist2 c.1 x < dist2 best.1 x then c else best) h).2

/-- A degenerate (single-class or empty) training split, on which a
classifier cannot fit. -/
def degenerate (train : List LRow) : Bool :=
  countLabel true train == 0 || countLabel false train == 0

/-- Modelled from the spec: fitting one algorithm of the roster — fails
exactly on a degenerate single-class split, otherwise yields a deterministic
predictor (§4.3 failure policy). -/
def tryFit (_alg : String) (train : List LRow) : Option (Row → Bool) :=
  if degenerate train then none else some (nnPredict train)

/-- The parameters keying a Model Bench run for caching: algorithm set, test
fraction, seed, realistic-flag (§4.3). -/
structure BenchParams where
  algorithms : List String
  testFraction : ℚ
  seed : ℕ
  realistic : Bool
deriving DecidableEq

/-- The warning surfaced when an algorithm cannot fit. -/
def trainingWarning (alg : String) : String := "TrainingWarning: " ++ alg

/-- Walk the algorithm roster: a successful fit contributes its metrics to
the result mapping; a failed fit is excluded and contributes a
`TrainingWarning` instead. Returns `(results, warnings)`. -/
def rosterFold (train test : List LRow) : List String →
    List (String × ModelMetrics) × List String
  | [] => ([], [])
  | alg :: rest =>
    match tryFit alg train with
    | some f =>
      ((alg, metricsOf f test) :: (rosterFold train test rest).1,
       (rosterFold train test rest).2)
    | none =>
      ((rosterFold train test rest).1,
       trainingWarning alg :: (rosterFold train test rest).2)

/-- Modelled from the spec: the Model Bench `run` operation — prepare the
splits once, then fit and evaluate every algorithm of the roster (§4.3). -/
def runBench (rows : List LRow) (p : BenchParams) :
    List (String × ModelMetrics) × List String :=
  rosterFold (benchPipeline rows p.testFraction p.seed).1
    (benchPipeline rows p.testFraction p.seed).2 p.algorithms

/-- The bench run as seen by the API boundary: per-algorithm failures are
absorbed inside `runBench`, so the operation itself always succeeds. -/
def runBenchE (rows : List LRow) (p : BenchParams) :
    Except String (List (String × ModelMetrics) × List String) :=
  Except.ok (runBench rows p)

theorem countLabel_append (b : Bool) (l₁ l₂ : List LRow) :
    countLabel b (l₁ ++ l₂) = countLabel b l₁ + countLabel b l₂ :=
  List.countP_append _ l₁ l₂

theorem countLabel_synth (b c : Bool) (n : ℕ) (g : ℕ → Row) :
    countLabel b ((List.range n).map (fun i => (g i, c))) =
      if c = b then n else 0 := by
  unfold countLabel
  rw [List.countP_map]
  by_cases h : c = b
  · rw [if_pos h]
    have : List.countP ((fun x : LRow => x.2 == b) ∘ fun i => (g i, c))
        (List.range n) = (List.range n).length :=
      List.countP_eq_length.mpr (fun a _ => by simp [h])
    rw [this, List.length_range]
  · rw [if_neg h]
    exact List.countP_eq_zero.mpr (fun a _ => by simp [h])

theorem minorityRows_length (train : List LRow) :
    (minorityRows train).length = countLabel (minorityLabel train) train := by
  unfold minorityRows countLabel
  rw [List.length_map, List.countP_eq_length_filter]

theorem minorityRows_mem (train : List LRow) (a : Row)
    (ha : a ∈ minorityRows train) : (a, minorityLabel train) ∈ train := by
  unfold minorityRows at ha
  rcases List.mem_map.mp ha with ⟨y, hy, hfst⟩
  rcases List.mem_filter.mp hy with ⟨hmem, hprop⟩
  have h2 : y.2 = minorityLabel train := by simpa using hprop
  have : y = (a, minorityLabel train) := by
    cases y with
    | mk y1 y2 => simp_all
  rwa [← this]

theorem smote_balanced (tr : List LRow)
    (hp : 0 < countLabel true tr) (hn : 0 < countLabel false tr) :
    countLabel true (smote tr) = countLabel false (smote tr) := by
  have hlen : 0 < (minorityRows tr).length := by
    rw [minorityRows_length]
    unfold minorityLabel
    by_cases h : countLabel true tr ≤ countLabel false tr
    · rwa [if_pos h]
    · rwa [if_neg h]
  have hne : ¬ (minorityRows tr).isEmpty = true := by
    rw [List.isEmpty_iff]
    exact fun h => by simp [h] at hlen
  unfold smote
  rw [if_neg hne]
  by_cases h : countLabel true tr ≤ countLabel false tr
  · have hmin : minorityLabel tr = true := if_pos h
    rw [countLabel_append, countLabel_append, hmin, countLabel_synth,
      countLabel_synth, if_pos rfl, if_neg (by simp),
      Nat.max_eq_right h, Nat.min_eq_left h, Nat.add_sub_cancel' h,
      Nat.add_zero]
  · have h' : countLabel false tr ≤ countLabel true tr :=
      Nat.le_of_lt (Nat.lt_of_not_le h)
    have hmin : minorityLabel tr = false := if_neg h
    rw [countLabel_append, countLabel_append, hmin, countLabel_synth,
      countLabel_synth, if_neg (by simp), if_pos rfl,
      Nat.max_eq_left h', Nat.min_eq_right h', Nat.add_sub_cancel' h',
      Nat.add_zero]

theorem smote_mem (tr : List LRow) (x : LRow) (hx : x ∈ smote tr) :
    x ∈ tr ∨ ∃ a b, (a, minorityLabel tr) ∈ tr ∧ (b, minorityLabel tr) ∈ tr ∧
      x = (interpolate a b, minorityLabel tr) := by
  unfold smote at hx
  by_cases he : (minorityRows tr).isEmpty = true
  · rw [if_pos he] at hx
    exact Or.inl hx
  · rw [if_neg he] at hx
    rcases List.mem_append.mp hx with h | h
    · exact Or.inl h
    · right
      rcases List.mem_map.mp h with ⟨i, _, hEq⟩
      have hlen : 0 < (minorityRows tr).length := by
        rcases List.length_pos.mpr (fun hnil => he (List.isEmpty_iff.mpr hnil))
          with h'
        exact h'
      have h1 : i % (minorityRows tr).length < (minorityRows tr).length :=
        Nat.mod_lt _ hlen
      have h2 : (i + 1) % (minorityRows tr).length < (minorityRows tr).length :=
        Nat.mod_lt _ hlen
      refine ⟨(minorityRows tr).getD (i % (minorityRows tr).length) [],
        (minorityRows tr).getD ((i + 1) % (minorityRows tr).length) [],
        ?_, ?_, hEq.symm⟩
      · refine minorityRows_mem tr _ ?_
        rw [List.getD_eq_getElem _ _ h1]
        exact List.getElem_mem h1
      · refine minorityRows_mem tr _ ?_
        rw [List.getD_eq_getElem _ _ h2]
        exact List.getElem_mem h2

/-- Claim C5: oversampling is applied to the training split only — the test
split of the bench pipeline is exactly the raw split's test side, the train
side is the oversampled raw train side, oversampling balances the class
counts whenever both classes are present, and every row it adds is a convex
interpolation of two minority-class training rows. -/
theorem smote_train_only :
    (∀ (rows : List LRow) (frac : ℚ) (seed : ℕ),
        (benchPipeline rows frac seed).2 = (stratSplit rows frac seed).2 ∧
        (benchPipeline rows frac seed).1 = smote (stratSplit rows frac seed).1) ∧
    (∀ tr : List LRow, 0 < countLabel true tr → 0 < countLabel false tr →
        countLabel true (smote tr) = countLabel false (smote tr)) ∧
    (∀ (tr : List LRow) (x : LRow), x ∈ smote tr →
        x ∈ tr ∨ ∃ a b, (a, minorityLabel tr) ∈ tr ∧
          (b, minorityLabel tr) ∈ tr ∧ x = (interpolate a b, minorityLabel tr)) :=
  ⟨fun _ _ _ => ⟨rfl, rfl⟩, smote_balanced, smote_mem⟩

/-- Witness for C5 at a concrete training split (two positive rows, one
negative): oversampling balances the counts to two against two. -/
theorem smote_train_only_witness :
    countLabel true (smote [([0], true), ([2], true), ([1], false)]) =
      countLabel false (smote [([0], true), ([2], true), ([1], false)]) :=
  smote_train_only.2.1 [([0], true), ([2], true), ([1], false)]
    (by decide) (by decide)

theorem rosterFold_results_fit (tr te : List LRow) (algs : List String)
    (a : String) (m : ModelMetrics)
    (h : (a, m) ∈ (rosterFold tr te algs).1) :
    ∃ f, tryFit a tr = some f ∧ m = metricsOf f te := by
  induction algs with
  | nil => simp [rosterFold] at h
  | cons alg rest ih =>
    cases hf : tryFit alg tr with
    | some f =>
      rw [rosterFold, hf] at h
      rcases List.mem_cons.mp h with h' | h'
      · have ha : a = alg := congrArg Prod.fst h'
        have hm : m = metricsOf f te := congrArg Prod.snd h'
        exact ⟨f, ha ▸ hf, hm⟩
      · exact ih h'
    | none =>
      rw [rosterFold, hf] at h
      exact ih h

theorem rosterFold_warning (tr te : List LRow) (algs : List String)
    (a : String) (ha : a ∈ algs) (hf : tryFit a tr = none) :
    trainingWarning a ∈ (rosterFold tr te algs).2 := by
  induction algs with
  | nil => simp at ha
  | cons alg rest ih =>
    rcases List.mem_cons.mp ha with h' | h'
    · subst h'
      rw [rosterFold, hf]
      exact List.mem_cons_self _ _
    · cases hg : tryFit alg tr with
      | some f =>
        rw [rosterFold, hg]
        exact ih h'
      | none =>
        rw [rosterFold, hg]
        exact List.mem_cons_of_mem _ (ih h')

theorem rosterFold_results_mem (tr te : List LRow) (algs : List String)
    (a : String) (f : Row → Bool) (ha : a ∈ algs) (hf : tryFit a tr = some f) :
    (a, metricsOf f te) ∈ (rosterFold tr te algs).1 := by
  induction algs with
  | nil => simp at ha
  | cons alg rest ih =>
    rcases List.mem_cons.mp ha with h' | h'
    · subst h'
      rw [rosterFold, hf]
      exact List.mem_cons_self _ _
    · cases hg : tryFit alg tr with
      | some g =>
        rw [rosterFold, hg]
        exact List.mem_cons_of_mem _ (ih h')
      | none =>
        rw [rosterFold, hg]
        exact ih h'

/-- Claim C7: a per-algorithm fit failure is absorbed, never propagated — an
algorithm whose fit fails is excluded from the result mapping and surfaces a
`TrainingWarning` naming it, every algorithm whose fit succeeds still gets
its result, and the bench operation as a whole never returns an error. -/
theorem bench_fit_failure_policy :
    ∀ (rows : List LRow) (p : BenchParams) (alg : String), alg ∈ p.algorithms →
      (tryFit alg (benchPipeline rows p.testFraction p.seed).1 = none →
        (∀ m, (alg, m) ∉ (runBench rows p).1) ∧
        trainingWarning alg ∈ (runBench rows p).2) ∧
      (∀ f, tryFit alg (benchPipeline rows p.testFraction p.seed).1 = some f →
        (alg, metricsOf f (benchPipeline rows p.testFraction p.seed).2)
          ∈ (runBench rows p).1) ∧
      (∀ e, runBenchE rows p ≠ Except.error e) := by
  intro rows p alg halg
  refine ⟨fun hnone => ⟨fun m hm => ?_, ?_⟩, fun f hf => ?_, fun e h => ?_⟩
  · rcases rosterFold_results_fit _ _ _ _ _ hm with ⟨f, hf, _⟩
    rw [hnone] at hf
    exact Option.noConfusion hf
  · exact rosterFold_warning _ _ _ _ halg hnone
  · exact rosterFold_results_mem _ _ _ _ _ halg hf
  · exact Except.noConfusion h

/-- The concrete all-negative four-row dataset for the C7 witness. -/
def rowsAllNeg : List LRow := [([0], false), ([1], false), ([2], false), ([3], false)]

/-- The concrete bench parameters for the C7 witness: zero test fraction and
seed, one algorithm. -/
def pNB : BenchParams := ⟨["naive_bayes"], 0, 0, true⟩

theorem rowsAllNeg_split : stratSplit rowsAllNeg 0 0 = (rowsAllNeg, []) := by
  simp [stratSplit, seededRot, rowsAllNeg, List.filter]

theorem rowsAllNeg_tryFit :
    tryFit "naive_bayes" (benchPipeline rowsAllNeg 0 0).1 = none := by
  have h1 : (benchPipeline rowsAllNeg 0 0).1 = smote rowsAllNeg := by
    rw [benchPipeline, rowsAllNeg_split]
  have h2 : smote rowsAllNeg = rowsAllNeg := by decide
  rw [h1, h2]
  simp [tryFit, show degenerate rowsAllNeg = true by decide]

/-- Witness for C7 at a concrete input: on a degenerate all-negative dataset
the single rostered algorithm fails to fit, so it is absent from the results
and its `TrainingWarning` is surfaced, while the bench call still succeeds. -/
theorem bench_fit_failure_policy_witness :
    trainingWarning "naive_bayes" ∈ (runBench rowsAllNeg pNB).2 ∧
    runBenchE rowsAllNeg pNB ≠ Except.error "boom" :=
  ⟨((bench_fit_failure_policy rowsAllNeg pNB "naive_bayes" (by decide)).1
      rowsAllNeg_tryFit).2,
   (bench_fit_failure_policy rowsAllNeg pNB "naive_bayes" (by decide)).2.2 "boom"⟩

/-- Claim C2: with the bench result keyed by the run parameters, two
consecutive requests with identical parameters on the same loaded dataset
return identical results (every metric equal, since the whole result values
are equal), the second request does not recompute (miss count unchanged,
i.e. it short-circuits to the cached result), and the cached value is exactly
the deterministic `runBench` output. -/
theorem bench_cached_deterministic :
    ∀ (rows : List LRow)
      (st : ResultCache BenchParams (List (String × ModelMetrics) × List String))
      (p : BenchParams),
      (cacheRun (runBench rows) (cacheRun (runBench rows) st p).2 p).1 =
        (cacheRun (runBench rows) st p).1 ∧
      (cacheRun (runBench rows) (cacheRun (runBench rows) st p).2 p).2.misses =
        (cacheRun (runBench rows) st p).2.misses ∧
      (cacheRun (runBench rows) ⟨[], 0⟩ p).1 = runBench rows p := by
  intro rows st p
  refine ⟨(cacheRun_second _ st p).1, (cacheRun_second _ st p).2, ?_⟩
  rfl

/-! ### Segmentation Engine (modelled from the spec §4.5; backend source absent) -/

/-- The fixed k-means seed (§4.5: deterministic seed). -/
def kmeansSeed : ℕ := 42

/-- The fixed k-means iteration bound (§4.5: fixed max-iterations). -/
def kmeansMaxIter : ℕ := 10

/-- Per-column mean over a list of feature vectors. -/
def colMean (rows : List Row) (j : ℕ) : ℚ :=
  listMean (rows.map (fun r => r.getD j 0))

/-- Per-column variance numerator surrogate over a list of feature vectors. -/
def colVar (rows : List Row) (j : ℕ) : ℚ :=
  listMean (rows.map (fun r => (r.getD j 0 - colMean rows j) * (r.getD j 0 - colMean rows j)))

/-- Modelled from the spec: standardize features over the input subset only
(§4.5). The true z-score divides by the standard deviation, which is
irrational in general; the rational surrogate divides by the variance (a
constant column maps to `0` either way), which preserves everything the
claims use (determinism and shape). -/
def standardize (rows : List Row) : List Row :=
  let dim := (rows.headD []).length
  rows.map (fun r => (List.range dim).map
    (fun j => safeDiv (r.getD j 0 - colMean rows j) (colVar rows j)))

/-- Index of the nearest centroid to `x` (first index on ties). -/
def nearestIdx (cs : List Row) (x : Row) : ℕ :=
  (cs.foldl
    (fun (acc : ℕ × ℕ × ℚ) c =>
      if dist2 c x < acc.2.2 then (acc.1 + 1, acc.1, dist2 c x)
      else (acc.1 + 1, acc.2.1, acc.2.2))
    (1, 0, dist2 (cs.headD []) x)).2.1

/-- Cluster assignment of every row against the given centroids. -/
def assignAll (rows cs : List Row) : List ℕ := rows.map (nearestIdx cs)

/-- Mean of the rows assigned to cluster `i` (the centroid update); an empty
cluster keeps its old centroid. -/
def clusterMean (rows : List Row) (assign : List ℕ) (i : ℕ) (old : Row) : Row :=
  let members := (rows.zip assign).filterMap
    (fun ra => if ra.2 = i then some ra.1 else none)
  if members.isEmpty then old
  else (List.range (members.headD []).length).map
    (fun j => listMean (members.map (fun r => r.getD j 0)))

/-- One Lloyd iteration: assign, then update every centroid. -/
def kmeansStep (rows : List Row) (k : ℕ) (cs : List Row) : List Row :=
  (List.range k).map (fun i => clusterMean rows (assignAll rows cs) i (cs.getD i []))

/-- Fixed-fuel Lloyd iteration. -/
def kmeansIterate (rows : List Row) (k : ℕ) : ℕ → List Row → List Row
  | 0, cs => cs
  | n + 1, cs => kmeansIterate rows k n (kmeansStep rows k cs)

/-- Modelled from the spec: deterministic seeded initialization — the first k
distinct rows in the seed-determined order (the deterministic stand-in for
seeded k-means++ choice; only determinism matters to the claims). -/
def kmeansInit (rows : List Row) (k : ℕ) : List Row :=
  (seededRot kmeansSeed rows.dedup).take k

/-- The cluster id assigned to every record by the seeded, fixed-iteration
k-means (§4.5). -/
def kmeansAssign (rows : List Row) (k : ℕ) : List ℕ :=
  assignAll rows (kmeansIterate rows k kmeansMaxIter (kmeansInit rows k))

/-- The Segmentation Engine's error taxonomy entry (§7). -/
inductive SegError
  | InvalidK
deriving DecidableEq, Repr

/-- A segmentation run: the per-record cluster assignments. -/
structure SegRun where
  assignments : List ℕ
deriving DecidableEq, Repr

/-- Number of distinct rows of the feature subset. -/
def distinctRowCount (rows : List Row) : ℕ := rows.dedup.length

/-- Modelled from the spec: `segment(subset, k)` fails with `InvalidK` when k
is outside [2,10] or exceeds the distinct-row count, and otherwise
standardizes and runs the seeded k-means (§4.5). -/
def segment (rows : List Row) (k : ℕ) : Except SegError SegRun :=
  if k < 2 ∨ 10 < k ∨ distinctRowCount rows < k then Except.error SegError.InvalidK
  else Except.ok ⟨kmeansAssign (standardize rows) k⟩

/-- Claim C4: the segment operation fails with `InvalidK` exactly when the
requested cluster count is outside [2,10] or exceeds the number of distinct
rows of the feature subset; for every in-range k it does not fail. -/
theorem segment_invalidK_iff :
    ∀ (rows : List Row) (k : ℕ),
      segment rows k = Except.error SegError.InvalidK ↔
        (k < 2 ∨ 10 < k ∨ distinctRowCount rows < k) := by
  intro rows k
  by_cases h : k < 2 ∨ 10 < k ∨ distinctRowCount rows < k
  · simp [segment, h]
  · simp [segment, h]

/-- Claim C8: segmentation requests go through the result cache keyed by k —
a second request with the same k on the same unreloaded dataset
short-circuits to the first request's result, so the cluster assignments are
identical; and for any valid k the first request (empty cache) is exactly the
deterministic seeded k-means run. -/
theorem segment_idempotent :
    ∀ (rows : List Row) (st : ResultCache ℕ (Except SegError SegRun)) (k : ℕ),
      (cacheRun (segment rows) (cacheRun (segment rows) st k).2 k).1 =
        (cacheRun (segment rows) st k).1 ∧
      (∀ r1 r2, (cacheRun (segment rows) st k).1 = Except.ok r1 →
        (cacheRun (segment rows) (cacheRun (segment rows) st k).2 k).1 =
          Except.ok r2 →
        r2.assignments = r1.assignments) ∧
      (2 ≤ k → k ≤ 10 → k ≤ distinctRowCount rows →
        (cacheRun (segment rows) ⟨[], 0⟩ k).1 =
          Except.ok ⟨kmeansAssign (standardize rows) k⟩) := by
  intro rows st k
  refine ⟨(cacheRun_second _ st k).1, fun r1 r2 h1 h2 => ?_, fun h2 h10 hd => ?_⟩
  · rw [(cacheRun_second (segment rows) st k).1, h1] at h2
    exact congrArg SegRun.assignments (Except.ok.inj h2.symm)
  · have hcond : ¬ (k < 2 ∨ 10 < k ∨ distinctRowCount rows < k) := by omega
    show segment rows k = _
    rw [segment, if_neg hcond]

/-- Witness for C8 at a concrete input: on a two-row dataset with k = 2, the
second cached request returns the first request's result, and the first
request succeeds with the deterministic k-means assignments. -/
theorem segment_idempotent_witness :
    (cacheRun (segment [[0], [1]])
        (cacheRun (segment [[0], [1]]) ⟨[], 0⟩ 2).2 2).1 =
      (cacheRun (segment [[0], [1]]) ⟨[], 0⟩ 2).1 ∧
    (cacheRun (segment [[0], [1]]) ⟨[], 0⟩ 2).1 =
      Except.ok ⟨kmeansAssign (standardize [[0], [1]]) 2⟩ :=
  ⟨(segment_idempotent [[0], [1]] ⟨[], 0⟩ 2).1,
   (segment_idempotent [[0], [1]] ⟨[], 0⟩ 2).2.2 (by decide) (by decide) (by decide)⟩

/-! ### Importance Aggregator (modelled from the spec §4.4; backend source absent) -/

/-- A method's (feature name, raw or normalized score) sequence. -/
abbrev ScoreList := List (String × ℚ)

/-- Per-method score inputs to the aggregator: method name to score list. -/
abbrev MethodScores := List (String × ScoreList)

/-- Minimum of a rational list (`0` for the empty list, unused there). -/
def listMinQ : List ℚ → ℚ
  | [] => 0
  | v :: vs => vs.foldl min v

/-- Maximum of a rational list (`0` for the empty list, unused there). -/
def listMaxQ : List ℚ → ℚ
  | [] => 0
  | v :: vs => vs.foldl max v

/-- Modelled from the spec: min-max normalization of one method's raw scores
to [0,1], performed independently per method (§4.4). Over `ℚ` a constant
score list normalizes to `0` for every entry (as `0 / 0 = 0`). -/
def minmaxNorm (sc : ScoreList) : ScoreList :=
  sc.map (fun e =>
    (e.1, (e.2 - listMinQ (sc.map Prod.snd)) /
      (listMaxQ (sc.map Prod.snd) - listMinQ (sc.map Prod.snd))))

/-- The score a method's list carries for feature `f`, when present. -/
def lookupScore (sc : ScoreList) (f : String) : Option ℚ := assocFind f sc

/-- Every method's scores, each min-max normalized independently. -/
def normalizedMethods (ms : MethodScores) : MethodScores :=
  ms.map (fun m => (m.1, minmaxNorm m.2))

/-- The normalized scores that exist for feature `f`, across exactly the
methods that produced a score for it (absent methods contribute nothing). -/
def presentScores (ms : MethodScores) (f : String) : List ℚ :=
  (normalizedMethods ms).filterMap (fun m => lookupScore m.2 f)

/-- Modelled from the spec: the `aggregated` score of a feature is the
arithmetic mean of the normalized per-method scores over exactly those
methods that scored the feature (§4.4). -/
def aggScore (ms : MethodScores) (f : String) : ℚ :=
  listMean (presentScores ms f)

/-- Union of the feature names scored by any method. -/
def featureUnion (ms : MethodScores) : List String :=
  ((ms.map (fun m => m.2.map Prod.fst)).flatten).dedup

/-- The unranked `aggregated` entries (feature, aggregated score). -/
def aggregatedEntries (ms : MethodScores) : ScoreList :=
  (featureUnion ms).map (fun f => (f, aggScore ms f))

/-- The ranking order: descending score, ties broken by feature name
ascending (lexicographic), for determinism (§4.4). -/
def rankLE (a b : String × ℚ) : Bool :=
  decide (b.2 < a.2 ∨ (a.2 = b.2 ∧ a.1 ≤ b.1))

/-- Sort entries by descending score with name tie-break. -/
def rankEntries (sc : ScoreList) : ScoreList := sc.mergeSort rankLE

/-- Default output truncation (§4.4: top-N, default 15). -/
def topN : ℕ := 15

/-- The `aggregated` method's output: ranked, truncated entries. -/
def aggregatedRanking (ms : MethodScores) : ScoreList :=
  (rankEntries (aggregatedEntries ms)).take topN

theorem foldl_min_le (l : List ℚ) (a : ℚ) :
    ∀ x, (x = a ∨ x ∈ l) → l.foldl min a ≤ x := by
  induction l generalizing a with
  | nil =>
    intro x hx
    rcases hx with rfl | hx
    · exact le_refl _
    · simp at hx
  | cons b t ih =>
    intro x hx
    rcases hx with rfl | hx
    · exact le_trans (ih (min x b) (min x b) (Or.inl rfl)) (min_le_left _ _)
    · rcases List.mem_cons.mp hx with rfl | hx
      · exact le_trans (ih (min a x) (min a x) (Or.inl rfl)) (min_le_right _ _)
      · exact ih (min a b) x (Or.inr hx)

theorem le_foldl_max (l : List ℚ) (a : ℚ) :
    ∀ x, (x = a ∨ x ∈ l) → x ≤ l.foldl max a := by
  induction l generalizing a with
  | nil =>
    intro x hx
    rcases hx with rfl | hx
    · exact le_refl _
    · simp at hx
  | cons b t ih =>
    intro x hx
    rcases hx with rfl | hx
    · exact le_trans (le_max_left _ _) (ih (max x b) (max x b) (Or.inl rfl))
    · rcases List.mem_cons.mp hx with rfl | hx
      · exact le_trans (le_max_right _ _) (ih (max a x) (max a x) (Or.inl rfl))
      · exact ih (max a b) x (Or.inr hx)

theorem listMinQ_le (vs : List ℚ) (v : ℚ) (hv : v ∈ vs) : listMinQ vs ≤ v := by
  cases vs with
  | nil => simp at hv
  | cons w ws =>
    rcases List.mem_cons.mp hv with rfl | hv
    · exact foldl_min_le ws v v (Or.inl rfl)
    · exact foldl_min_le ws w v (Or.inr hv)

theorem le_listMaxQ (vs : List ℚ) (v : ℚ) (hv : v ∈ vs) : v ≤ listMaxQ vs := by
  cases vs with
  | nil => simp at hv
  | cons w ws =>
    rcases List.mem_cons.mp hv with rfl | hv
    · exact le_foldl_max ws v v (Or.inl rfl)
    · exact le_foldl_max ws w v (Or.inr hv)

theorem norm01 (lo hi s : ℚ) (h1 : lo ≤ s) (h2 : s ≤ hi) :
    0 ≤ (s - lo) / (hi - lo) ∧ (s - lo) / (hi - lo) ≤ 1 := by
  by_cases hd : hi - lo = 0
  · have hs : s = lo := le_antisymm (by linarith [sub_eq_zero.mp hd]) h1
    rw [hs, sub_self, zero_div]
    exact ⟨le_refl 0, zero_le_one⟩
  · have hpos : 0 < hi - lo := lt_of_le_of_ne (by linarith) (Ne.symm hd)
    constructor
    · exact div_nonneg (by linarith) (le_of_lt hpos)
    · exact (div_le_one hpos).mpr (by linarith)

theorem assocFind_mem {κ ρ : Type} [DecidableEq κ] (k : κ) (r : ρ)
    (l : List (κ × ρ)) (h : assocFind k l = some r) : (k, r) ∈ l := by
  induction l with
  | nil => simp [assocFind] at h
  | cons e t ih =>
    obtain ⟨k', r'⟩ := e
    unfold assocFind at h
    by_cases he : k = k'
    · rw [if_pos he] at h
      have hr : r' = r := Option.some.inj h
      rw [he, ← hr]
      exact List.mem_cons_self _ _
    · rw [if_neg he] at h
      exact List.mem_cons_of_mem _ (ih h)

theorem minmaxNorm_bounds (sc : ScoreList) (f : String) (q : ℚ)
    (h : (f, q) ∈ minmaxNorm sc) : 0 ≤ q ∧ q ≤ 1 := by
  unfold minmaxNorm at h
  rcases List.mem_map.mp h with ⟨e, he, hEq⟩
  have hq : q = (e.2 - listMinQ (sc.map Prod.snd)) /
      (listMaxQ (sc.map Prod.snd) - listMinQ (sc.map Prod.snd)) :=
    (congrArg Prod.snd hEq).symm
  have hmem : e.2 ∈ sc.map Prod.snd := List.mem_map.mpr ⟨e, he, rfl⟩
  rw [hq]
  exact norm01 _ _ _ (listMinQ_le _ _ hmem) (le_listMaxQ _ _ hmem)

theorem presentScores_bounds (ms : MethodScores) (f : String) (q : ℚ)
    (hq : q ∈ presentScores ms f) : 0 ≤ q ∧ q ≤ 1 := by
  unfold presentScores at hq
  rcases List.mem_filterMap.mp hq with ⟨m, hm, hl⟩
  rcases List.mem_map.mp hm with ⟨m0, _, hEq⟩
  have hsc : m.2 = minmaxNorm m0.2 := (congrArg Prod.snd hEq).symm
  rw [hsc] at hl
  exact minmaxNorm_bounds _ _ _ (assocFind_mem f q _ hl)

theorem listMean_bounds (l : List ℚ) (h : ∀ x ∈ l, 0 ≤ x ∧ x ≤ 1) :
    0 ≤ listMean l ∧ listMean l ≤ 1 := by
  cases hl : l with
  | nil => norm_num [listMean]
  | cons v vs =>
    rw [← hl]
    have hlen : (0 : ℚ) < l.length := by
      rw [hl]
      exact_mod_cast Nat.succ_pos vs.length
    have hsum0 : 0 ≤ l.sum := List.sum_nonneg (fun x hx => (h x hx).1)
    have hsum1 : l.sum ≤ (l.length : ℚ) := by
      have := List.sum_le_card_nsmul l 1 (fun x hx => (h x hx).2)
      rwa [nsmul_eq_mul, mul_one] at this
    constructor
    · exact div_nonneg hsum0 (le_of_lt hlen)
    · exact (div_le_one hlen).mpr hsum1

theorem aggScore_bounds (ms : MethodScores) (f : String) :
    0 ≤ aggScore ms f ∧ aggScore ms f ≤ 1 :=
  listMean_bounds _ (fun x hx => presentScores_bounds ms f x hx)

theorem rankLE_trans (a b c : String × ℚ)
    (hab : rankLE a b = true) (hbc : rankLE b c = true) : rankLE a c = true := by
  unfold rankLE at *
  rw [decide_eq_true_eq] at *
  rcases hab with h1 | ⟨h1, h1'⟩ <;> rcases hbc with h2 | ⟨h2, h2'⟩
  · exact Or.inl (lt_trans h2 h1)
  · exact Or.inl (h2 ▸ h1)
  · exact Or.inl (h1 ▸ h2)
  · exact Or.inr ⟨h1.trans h2, h1'.trans h2'⟩

theorem rankLE_total (a b : String × ℚ) :
    (rankLE a b || rankLE b a) = true := by
  unfold rankLE
  rcases lt_trichotomy a.2 b.2 with h | h | h
  · simp [h]
  · rcases le_total a.1 b.1 with hn | hn
    · simp [h, hn]
    · simp [h, hn]
  · simp [h]

/-- Claim C6: every entry of the `aggregated` ranking carries exactly the
mean of the normalized per-method scores that exist for that feature, every
such score lies in [0,1], and the ranking is ordered by descending score
with ties broken by feature name ascending. -/
theorem aggregated_ranking_correct :
    ∀ (ms : MethodScores),
      (∀ e, e ∈ aggregatedRanking ms →
        e.2 = aggScore ms e.1 ∧
        e.2 = listMean (presentScores ms e.1) ∧
        0 ≤ e.2 ∧ e.2 ≤ 1) ∧
      List.Pairwise (fun a b : String × ℚ =>
        b.2 < a.2 ∨ (a.2 = b.2 ∧ a.1 ≤ b.1)) (aggregatedRanking ms) := by
  intro ms
  constructor
  · intro e he
    have h1 : e ∈ rankEntries (aggregatedEntries ms) :=
      (List.take_sublist _ _).mem he
    have h2 : e ∈ aggregatedEntries ms := by
      unfold rankEntries at h1
      exact List.mem_mergeSort.mp h1
    rcases List.mem_map.mp h2 with ⟨f, _, hEq⟩
    have hf : e.1 = f := (congrArg Prod.fst hEq).symm
    have hs : e.2 = aggScore ms f := (congrArg Prod.snd hEq).symm
    rw [hf, hs]
    exact ⟨rfl, rfl, aggScore_bounds ms f⟩
  · have hs : List.Pairwise (fun a b => rankLE a b = true)
        (rankEntries (aggregatedEntries ms)) :=
      List.sorted_mergeSort rankLE_trans rankLE_total (aggregatedEntries ms)
    have ht : List.Pairwise (fun a b => rankLE a b = true)
        (aggregatedRanking ms) :=
      List.Pairwise.sublist (List.take_sublist _ _) hs
    refine ht.imp (fun h => ?_)
    unfold rankLE at h
    exact of_decide_eq_true h

/-- The single-method, single-feature inputs for the C6 witness. -/
def msW : MethodScores := [("random_forest", [("age", 4)])]

theorem msW_ranking : aggregatedRanking msW =
    [("age", aggScore msW "age")] := by
  have h : aggregatedEntries msW = [("age", aggScore msW "age")] := by
    unfold aggregatedEntries featureUnion msW
    simp [List.dedup]
  unfold aggregatedRanking rankEntries topN
  rw [h, List.mergeSort_singleton, List.take]
  rfl

/-- Witness for C6 at a concrete input: the single ranked entry of the
one-method, one-feature aggregation carries the mean of its present
normalized scores and lies in [0,1]. -/
theorem aggregated_ranking_correct_witness :
    ("age", aggScore msW "age").2 = aggScore msW "age" ∧
    ("age", aggScore msW "age").2 = listMean (presentScores msW "age") ∧
    0 ≤ ("age", aggScore msW "age").2 ∧ ("age", aggScore msW "age").2 ≤ 1 :=
  (aggregated_ranking_correct msW).1 ("age", aggScore msW "age")
    (by rw [msW_ranking]; exact List.mem_singleton.mpr rfl)

/-! ### CustomerSegmentation page (embedded from `CustomerSegmentation.jsx`) -/

/-- The values an HTML range input with min="3", max="6" and the default
step of 1 can report, as strings (`CustomerSegmentation.jsx` lines 65-72). -/
def sliderValues : List String := ["3", "4", "5", "6"]

/-- Value of a run of decimal digit characters. -/
def digitsVal (cs : List Char) : ℕ :=
  cs.foldl (fun a c => a * 10 + (c.toNat - 48)) 0

/-- JS `parseInt` at radix 10 on a trimmed-style input: optional sign, then
the leading run of digits; NaN (here `none`) when no digit leads. -/
def jsParseInt (s : String) : Option ℤ :=
  match s.toList.dropWhile (· = ' ') with
  | '-' :: r =>
    if (r.takeWhile (·.isDigit)).isEmpty then none
    else some (-(digitsVal (r.takeWhile (·.isDigit)) : ℤ))
  | '+' :: r =>
    if (r.takeWhile (·.isDigit)).isEmpty then none
    else some ((digitsVal (r.takeWhile (·.isDigit)) : ℤ))
  | r =>
    if (r.takeWhile (·.isDigit)).isEmpty then none
    else some ((digitsVal (r.takeWhile (·.isDigit)) : ℤ))

/-- The reachable values of the page's `nClusters` React state: it starts at
4 (`useState(4)`, line 10) and is only ever set to
`parseInt(e.target.value)` of a slider value (line 70). -/
inductive NClustersReachable : ℕ → Prop
  | init : NClustersReachable 4
  | slide (v : String) (hv : v ∈ sliderValues) (k : ℕ)
      (h : NClustersReachable k) (n : ℤ) (hp : jsParseInt v = some n) :
      NClustersReachable n.toNat

/-- Claim C9: every customer-segmentation request this page can issue carries
an integer `n_clusters` in [3,6] — the initial value is 4 and every slider
update parses to 3, 4, 5 or 6 — so, the engine validating exactly k ∈ [2,10]
(up to the distinct-row bound), the `InvalidK` branch is unreachable for
requests originating from this client. -/
theorem slider_nclusters_in_range :
    ∀ k, NClustersReachable k →
      (3 ≤ k ∧ k ≤ 6) ∧
      (∀ rows : List Row, ¬ distinctRowCount rows < k →
        segment rows k ≠ Except.error SegError.InvalidK) := by
  have hrange : ∀ k, NClustersReachable k → 3 ≤ k ∧ k ≤ 6 := by
    intro k h
    induction h with
    | init => exact ⟨by decide, by decide⟩
    | slide v hv k' h' n hp ih =>
      rcases show v = "3" ∨ v = "4" ∨ v = "5" ∨ v = "6" by
          simpa [sliderValues] using hv with rfl | rfl | rfl | rfl
      · have hn : ((3 : ℤ)) = n :=
          Option.some.inj ((show jsParseInt "3" = some 3 by decide).symm.trans hp)
        rw [← hn]
        exact ⟨by decide, by decide⟩
      · have hn : ((4 : ℤ)) = n :=
          Option.some.inj ((show jsParseInt "4" = some 4 by decide).symm.trans hp)
        rw [← hn]
        exact ⟨by decide, by decide⟩
      · have hn : ((5 : ℤ)) = n :=
          Option.some.inj ((show jsParseInt "5" = some 5 by decide).symm.trans hp)
        rw [← hn]
        exact ⟨by decide, by decide⟩
      · have hn : ((6 : ℤ)) = n :=
          Option.some.inj ((show jsParseInt "6" = some 6 by decide).symm.trans hp)
        rw [← hn]
        exact ⟨by decide, by decide⟩
  intro k h
  refine ⟨hrange k h, fun rows hd hseg => ?_⟩
  have hb := hrange k h
  have hcond : ¬ (k < 2 ∨ 10 < k ∨ distinctRowCount rows < k) := by omega
  rw [segment, if_neg hcond] at hseg
  exact Except.noConfusion hseg

/-- Witness for C9 at a concrete input: the initial state 4 is reachable, is
in [3,6], and a request with it against a four-distinct-row dataset does not
hit `InvalidK`. -/
theorem slider_nclusters_in_range_witness :
    (3 ≤ 4 ∧ 4 ≤ 6) ∧
    segment [[0], [1], [2], [3]] 4 ≠ Except.error SegError.InvalidK :=
  ⟨(slider_nclusters_in_range 4 NClustersReachable.init).1,
   (slider_nclusters_in_range 4 NClustersReachable.init).2
     [[0], [1], [2], [3]] (by decide)⟩

/-! ### ContactOptimization page (embedded from the page source,
`src/unnamed/part_004`) -/

/-- One entry of the backend's frequency breakdown as consumed by the page. -/
structure FreqEntry where
  campaign : ℕ
  total_contacts : ℕ
  conversion_rate_pct : ℚ
deriving DecidableEq, Repr

/-- `freqData`: the page filters the frequency entries to `campaign <= 10`
before building any chart or recommendation (page line 35). -/
def freqData (frequency : List FreqEntry) : List FreqEntry :=
  frequency.filter (fun f => f.campaign ≤ 10)

/-- `optimalFreq`: the JS reduce over `freqData` selecting the entry with the
strictly greatest `conversion_rate_pct`, seeded with `freqData[0]` (page
lines 152-153); on an empty `freqData` the seed is `undefined` and the reduce
of an empty array returns it (`none` here). -/
def optimalFreq (frequency : List FreqEntry) : Option FreqEntry :=
  match freqData frequency with
  | [] => none
  | h :: t => some ((h :: t).foldl
      (fun mx f => if mx.conversion_rate_pct < f.conversion_rate_pct then f else mx) h)

theorem foldl_choice_mem (l : List FreqEntry) (a : FreqEntry)
    (S : List FreqEntry) (ha : a ∈ S) (hl : ∀ x ∈ l, x ∈ S) :
    l.foldl (fun mx f =>
      if mx.conversion_rate_pct < f.conversion_rate_pct then f else mx) a ∈ S := by
  induction l generalizing a with
  | nil => exact ha
  | cons b t ih =>
    have hstep : (if a.conversion_rate_pct < b.conversion_rate_pct then b else a) ∈ S := by
      by_cases h : a.conversion_rate_pct < b.conversion_rate_pct
      · rw [if_pos h]
        exact hl b (List.mem_cons_self _ _)
      · rw [if_neg h]
        exact ha
    exact ih _ hstep (fun x hx => hl x (List.mem_cons_of_mem _ hx))

/-- Claim C10: the page's frequency recommendation is computed only over the
buckets with `campaign <= 10` — every backend frequency entry above 10 is
filtered out of `freqData` before the maximal-conversion-rate bucket is
selected, so the reported "Optimal Frequency" always comes from `freqData`
and never exceeds 10 contacts, whatever its conversion rate. -/
theorem optimal_freq_le_ten :
    ∀ frequency : List FreqEntry,
      (∀ f ∈ frequency, 10 < f.campaign → f ∉ freqData frequency) ∧
      (∀ e, optimalFreq frequency = some e →
        e ∈ freqData frequency ∧ e.campaign ≤ 10) := by
  intro frequency
  constructor
  · intro f _ hf hmem
    have h10 : f.campaign ≤ 10 := by simpa using (List.mem_filter.mp hmem).2
    omega
  · intro e he
    unfold optimalFreq at he
    cases hd : freqData frequency with
    | nil =>
      rw [hd] at he
      exact Option.noConfusion he
    | cons h t =>
      rw [hd] at he
      have hfold := Option.some.inj he
      have hmem : e ∈ h :: t := by
        rw [← hfold]
        exact foldl_choice_mem (h :: t) h (h :: t)
          (List.mem_cons_self _ _) (fun x hx => hx)
      have hmemF : e ∈ freqData frequency := by
        rw [hd]
        exact hmem
      exact ⟨hmem, by simpa using (List.mem_filter.mp hmemF).2⟩

/-- The concrete frequency breakdown for the C10 witness: the bucket at 15
contacts has the best rate but is filtered out; the optimum comes from the
remaining buckets. -/
def freqW : List FreqEntry := [⟨1, 100, 10⟩, ⟨2, 50, 20⟩, ⟨15, 4, 95⟩]

/-- Witness for C10 at a concrete input: the campaign-15 bucket is excluded
from `freqData` despite its 95% rate, and the selected optimum is the
campaign-2 bucket, inside `freqData` and at most 10. -/
theorem optimal_freq_le_ten_witness :
    (⟨15, 4, 95⟩ : FreqEntry) ∉ freqData freqW ∧
    (⟨2, 50, 20⟩ : FreqEntry) ∈ freqData freqW ∧
    (⟨2, 50, 20⟩ : FreqEntry).campaign ≤ 10 :=
  ⟨(optimal_freq_le_ten freqW).1 ⟨15, 4, 95⟩ (by decide) (by decide),
   ((optimal_freq_le_ten freqW).2 ⟨2, 50, 20⟩ (by decide)).1,
   ((optimal_freq_le_ten freqW).2 ⟨2, 50, 20⟩ (by decide)).2⟩

end BankDash
